import Mathlib

/-!
Shallow embedding of the GaussianLib core (Matrix.h, Vector3.h).

A `Gs.Matrix T Rows Cols` is the raw storage of the C++ class template
`Gs::Matrix<T, Rows, Cols>`: a flat buffer of `Rows*Cols` scalars.  The
build-time storage layout switch `GS_ROW_MAJOR_STORAGE` is modelled by the
`Gs.Layout` parameter threaded through every operation that touches the
buffer through `operator()`, exactly as the preprocessor switch selects the
offset formula at compile time.
-/

namespace Gs

/-- The build-time storage layout choice: `GS_ROW_MAJOR_STORAGE` defined
(row-major) or not (column-major, the default). -/
inductive Layout where
  | rowMajor : Layout
  | colMajor : Layout
deriving DecidableEq

/-- The matrix data model: the member `T m_[Rows*Cols]` of `Gs::Matrix`. -/
structure Matrix (T : Type) (Rows Cols : ℕ) where
  m : Fin (Rows * Cols) → T

lemma Matrix.ext_m {T : Type} {R C : ℕ} {A B : Matrix T R C}
    (h : ∀ k, A.m k = B.m k) : A = B := by
  cases A; cases B; simp only [Matrix.mk.injEq]; funext k; exact h k

instance {T : Type} {R C : ℕ} [DecidableEq T] : DecidableEq (Matrix T R C) :=
  fun A B =>
    decidable_of_iff (∀ k, A.m k = B.m k)
      ⟨Matrix.ext_m, fun h k => by rw [h]⟩

lemma idx_lt {R C : ℕ} (r : Fin R) (c : Fin C) : r.1 * C + c.1 < R * C := by
  calc r.1 * C + c.1 < r.1 * C + C := Nat.add_lt_add_left c.2 _
    _ = (r.1 + 1) * C := (Nat.succ_mul _ _).symm
    _ ≤ R * C := Nat.mul_le_mul_right _ r.2

/-- The physical offset of logical index `(row, col)`: `row*Cols + col`
under row-major storage, `col*Rows + row` under column-major storage
(`operator()` of `Gs::Matrix`). -/
def physIdx (L : Layout) {R C : ℕ} (r : Fin R) (c : Fin C) : Fin (R * C) :=
  match L with
  | .rowMajor => ⟨r.1 * C + c.1, idx_lt r c⟩
  | .colMajor => ⟨c.1 * R + r.1, lt_of_lt_of_eq (idx_lt c r) (Nat.mul_comm C R)⟩

lemma cols_pos {R C : ℕ} (k : Fin (R * C)) : 0 < C := by
  rcases Nat.eq_zero_or_pos C with h | h
  · exact absurd k.2 (by simp [h])
  · exact h

lemma rows_pos {R C : ℕ} (k : Fin (R * C)) : 0 < R := by
  rcases Nat.eq_zero_or_pos R with h | h
  · exact absurd k.2 (by simp [h])
  · exact h

/-- The logical index stored at physical offset `k`: the inverse of the
`physIdx` offset map for the given layout. -/
def logicalOf (L : Layout) {R C : ℕ} (k : Fin (R * C)) : Fin R × Fin C :=
  match L with
  | .rowMajor =>
      (⟨k.1 / C, Nat.div_lt_of_lt_mul (Nat.mul_comm R C ▸ k.2)⟩,
       ⟨k.1 % C, Nat.mod_lt _ (cols_pos k)⟩)
  | .colMajor =>
      (⟨k.1 % R, Nat.mod_lt _ (rows_pos k)⟩,
       ⟨k.1 / R, Nat.div_lt_of_lt_mul k.2⟩)

/-- Element read `operator()(row, col)` of `Gs::Matrix`. -/
def Matrix.app (L : Layout) {T : Type} {R C : ℕ}
    (A : Matrix T R C) (r : Fin R) (c : Fin C) : T :=
  A.m (physIdx L r c)

/-- Build a matrix by writing every logical slot `(r, c)` exactly once, the
way the `__GS_FOREACH_ROW_COL__` loops of `Gs::Matrix` do. -/
def Matrix.ofFun (L : Layout) {T : Type} {R C : ℕ}
    (f : Fin R → Fin C → T) : Matrix T R C :=
  ⟨fun k => f (logicalOf L k).1 (logicalOf L k).2⟩

/-- Element write `operator()(row, col) = v`. -/
def Matrix.set (L : Layout) {T : Type} {R C : ℕ}
    (A : Matrix T R C) (r : Fin R) (c : Fin C) (v : T) : Matrix T R C :=
  ⟨fun k => if k = physIdx L r c then v else A.m k⟩

lemma slot_div {R C : ℕ} (r : Fin R) (c : Fin C) : (r.1 * C + c.1) / C = r.1 := by
  rw [Nat.mul_comm, Nat.mul_add_div c.pos, Nat.div_eq_of_lt c.2, Nat.add_zero]

lemma slot_mod {R C : ℕ} (r : Fin R) (c : Fin C) : (r.1 * C + c.1) % C = c.1 := by
  rw [Nat.mul_comm, Nat.mul_add_mod, Nat.mod_eq_of_lt c.2]

lemma logicalOf_physIdx (L : Layout) {R C : ℕ} (r : Fin R) (c : Fin C) :
    logicalOf L (physIdx L r c) = (r, c) := by
  cases L
  · simp only [logicalOf, physIdx, Prod.mk.injEq, Fin.ext_iff]
    exact ⟨slot_div r c, slot_mod r c⟩
  · simp only [logicalOf, physIdx, Prod.mk.injEq, Fin.ext_iff]
    exact ⟨slot_mod c r, slot_div c r⟩

lemma physIdx_logicalOf (L : Layout) {R C : ℕ} (k : Fin (R * C)) :
    physIdx L (logicalOf L k).1 (logicalOf L k).2 = k := by
  cases L
  · apply Fin.ext
    simp only [logicalOf, physIdx]
    rw [Nat.mul_comm]
    exact Nat.div_add_mod k.1 C
  · apply Fin.ext
    simp only [logicalOf, physIdx]
    rw [Nat.mul_comm]
    exact Nat.div_add_mod k.1 R

lemma Matrix.app_ofFun (L : Layout) {T : Type} {R C : ℕ}
    (f : Fin R → Fin C → T) (r : Fin R) (c : Fin C) :
    (Matrix.ofFun L f).app L r c = f r c := by
  simp [Matrix.app, Matrix.ofFun, logicalOf_physIdx]

lemma Matrix.ext_app (L : Layout) {T : Type} {R C : ℕ} {A B : Matrix T R C}
    (h : ∀ r c, A.app L r c = B.app L r c) : A = B := by
  apply Matrix.ext_m
  intro k
  have := h (logicalOf L k).1 (logicalOf L k).2
  simpa [Matrix.app, physIdx_logicalOf] using this

lemma physIdx_inj (L : Layout) {R C : ℕ} {r r' : Fin R} {c c' : Fin C}
    (h : physIdx L r c = physIdx L r' c') : r = r' ∧ c = c' := by
  have h1 := congrArg (logicalOf L) h
  rw [logicalOf_physIdx, logicalOf_physIdx] at h1
  exact ⟨congrArg Prod.fst h1, congrArg Prod.snd h1⟩

lemma Matrix.app_set (L : Layout) {T : Type} {R C : ℕ}
    (A : Matrix T R C) (r : Fin R) (c : Fin C) (v : T) (r' : Fin R) (c' : Fin C) :
    (A.set L r c v).app L r' c' =
      if r = r' ∧ c = c' then v else A.app L r' c' := by
  simp only [Matrix.set, Matrix.app]
  by_cases h : physIdx L r' c' = physIdx L r c
  · have := physIdx_inj L h
    simp [h, this.1.symm, this.2.symm]
  · have : ¬(r = r' ∧ c = c') := by
      rintro ⟨rfl, rfl⟩; exact h rfl
    simp [h, this]

/-- `Reset()`: every flat element set to `T(0)`; also the state produced by
the default constructor when auto-initialization is enabled. -/
def Matrix.Reset {T : Type} [Zero T] {R C : ℕ} : Matrix T R C :=
  ⟨fun _ => 0⟩

/-- `LoadIdentity()` / static `Identity()`: writes every logical slot
`(r, c)` with `r == c ? T(1) : T(0)` through the layout-directed
`__GS_FOREACH_ROW_COL__` loops. -/
def Matrix.Identity (L : Layout) (T : Type) [Zero T] [One T] (N : ℕ) :
    Matrix T N N :=
  Matrix.ofFun L (fun r c => if r = c then (1 : T) else 0)

/-- `Transposed()`: a fresh `Cols×Rows` matrix with `result(c, r) = (*this)(r, c)`
for every `r, c`; the source is not mutated. -/
def Matrix.Transposed (L : Layout) {T : Type} {R C : ℕ}
    (A : Matrix T R C) : Matrix T C R :=
  Matrix.ofFun L (fun c r => A.app L r c)

/-- `operator+=` and free `operator+`: element-wise over the flat buffer. -/
def Matrix.add {T : Type} [Add T] {R C : ℕ}
    (A B : Matrix T R C) : Matrix T R C :=
  ⟨fun k => A.m k + B.m k⟩

/-- `operator-=` and free `operator-`: element-wise over the flat buffer. -/
def Matrix.sub {T : Type} [Sub T] {R C : ℕ}
    (A B : Matrix T R C) : Matrix T R C :=
  ⟨fun k => A.m k - B.m k⟩

/-- `operator*=` by a scalar and the free scalar-product operators:
element-wise over the flat buffer. -/
def Matrix.mulScalar {T : Type} [Mul T] {R C : ℕ}
    (A : Matrix T R C) (s : T) : Matrix T R C :=
  ⟨fun k => A.m k * s⟩

/-- The inner accumulation of the free `operator*`:
`result(r, c) = T(0); for i in [0,K): result(r, c) += lhs(r, i)*rhs(i, c)`. -/
def dotAcc {T : Type} [Add T] [Zero T] (K : ℕ) (f : Fin K → T) : T :=
  (List.finRange K).foldl (fun acc i => acc + f i) 0

/-- Free `operator*` for `lhs : Rows×ColsRows` and `rhs : ColsRows×Cols`:
each logical slot of the result is written exactly once with the
accumulated sum of products. -/
def matMul (L : Layout) {T : Type} [Semiring T] {R K C : ℕ}
    (A : Matrix T R K) (B : Matrix T K C) : Matrix T R C :=
  Matrix.ofFun L (fun r c => dotAcc K (fun i => A.app L r i * B.app L i c))

/-- One comma step of the `Initializer` helper class: writes `nextValue` to
logical slot `(element_ / Cols, element_ % Cols)` and advances the cursor.
The C++ write is unchecked; feeding more than `Rows*Cols` values is
undefined behaviour there, totalised here as a no-op outside the buffer. -/
def writeAt (L : Layout) {T : Type} {R C : ℕ}
    (A : Matrix T R C) (e : ℕ) (v : T) : Matrix T R C :=
  if h : e < R * C then
    A.set L ⟨e / C, Nat.div_lt_of_lt_mul (Nat.mul_comm R C ▸ h)⟩
      ⟨e % C, Nat.mod_lt _ (cols_pos ⟨e, h⟩)⟩ v
  else A

/-- The `Initializer` chain starting at cursor `e`, fed the values `vs`
one comma at a time. -/
def initFrom (L : Layout) {T : Type} {R C : ℕ}
    (A : Matrix T R C) (e : ℕ) (vs : List T) : Matrix T R C :=
  match vs with
  | [] => A
  | v :: rest => initFrom L (writeAt L A e v) (e + 1) rest

/-- `matrix << v0, v1, ...`: the free `operator<<` constructs an
`Initializer` with cursor 0 and feeds it every supplied value in turn. -/
def initChain (L : Layout) {T : Type} {R C : ℕ}
    (A : Matrix T R C) (vs : List T) : Matrix T R C :=
  initFrom L A 0 vs

/-- `Matrix m; m << v0, v1, ...`: default-construct (zero-fill) then run
the initializer chain. -/
def mkMat (L : Layout) (T : Type) [Zero T] (R C : ℕ) (vs : List T) :
    Matrix T R C :=
  initChain L (Matrix.Reset) vs

/-- `MakeInverse()`: copies `*this` into `in`, then calls the collaborator
`Gs::Inverse(*this, in)` with `*this` as the output slot, returning the
collaborator's flag.  The collaborator (declared in Algebra.h, outside this
core) is a parameter `invC` mapping the initial output state and the input
matrix to the flag and the final output state. -/
def Matrix.MakeInverse {T : Type} {N : ℕ}
    (invC : Matrix T N N → Matrix T N N → Bool × Matrix T N N)
    (A : Matrix T N N) : Bool × Matrix T N N :=
  invC A A

/-- `Inverse() const`: copies `*this`, runs `MakeInverse` on the copy and
returns the copy, discarding the boolean flag. -/
def Matrix.Inverse {T : Type} {N : ℕ}
    (invC : Matrix T N N → Matrix T N N → Bool × Matrix T N N)
    (A : Matrix T N N) : Matrix T N N :=
  (Matrix.MakeInverse invC A).2

/-- `std::swap(m_[p], m_[q])` on a flat buffer viewed as a total function. -/
def swapIdx {T : Type} (f : ℕ → T) (pq : ℕ × ℕ) : ℕ → T :=
  fun k => if k = pq.1 then f pq.2 else if k = pq.2 then f pq.1 else f k

/-- The flat index pairs swapped by the in-place `Transpose()` loops, in
execution order: `for (i; i+1 < Cols)` then `for (j = 1; j+i < Cols)`,
swapping `m_[i*(Cols+1)+j]` with `m_[(j+i)*Cols+i]`. -/
def transposePairs (N : ℕ) : List (ℕ × ℕ) :=
  (List.range (N - 1)).flatMap fun i =>
    (List.range (N - 1 - i)).map fun j' =>
      (i * (N + 1) + (j' + 1), (j' + 1 + i) * N + i)

/-- In-place `Transpose()` (square only): performs the raw element swaps on
the flat buffer.  Reads outside the buffer cannot occur for the pairs the
loops generate; the extension of the buffer to all of `ℕ` by zero is only a
totalisation device. -/
def Matrix.Transpose {T : Type} [Zero T] {N : ℕ}
    (A : Matrix T N N) : Matrix T N N :=
  ⟨fun k =>
    ((transposePairs N).foldl swapIdx
      (fun i => if h : i < N * N then A.m ⟨i, h⟩ else 0)) k.1⟩

/-- The data model of `Gs::Vector3T<T>`: fields `x, y, z`. -/
structure Vector3T (T : Type) where
  x : T
  y : T
  z : T
deriving DecidableEq

/-- `Vector3T::operator+=`: component-wise sum. -/
def Vector3T.addV {T : Type} [Add T] (a b : Vector3T T) : Vector3T T :=
  ⟨a.x + b.x, a.y + b.y, a.z + b.z⟩

/-- `Vector3T::operator*=` by a vector: component-wise product. -/
def Vector3T.mulV {T : Type} [Mul T] (a b : Vector3T T) : Vector3T T :=
  ⟨a.x * b.x, a.y * b.y, a.z * b.z⟩

/-- `Vector3T::operator/=` by a vector: component-wise quotient. -/
def Vector3T.divV {T : Type} [Div T] (a b : Vector3T T) : Vector3T T :=
  ⟨a.x / b.x, a.y / b.y, a.z / b.z⟩

/-- Free `operator+ (lhs, rhs)` for vectors: copies `lhs` and applies `+=`. -/
def vecAdd {T : Type} [Add T] (lhs rhs : Vector3T T) : Vector3T T :=
  Vector3T.addV lhs rhs

/-- Free `operator/ (lhs, rhs)` for two vectors, exactly as written in the
source: it copies `lhs` into `result` and then applies `result *= rhs`
(the compound multiply, not the compound divide). -/
def vecDivOp {T : Type} [Mul T] (lhs rhs : Vector3T T) : Vector3T T :=
  Vector3T.mulV lhs rhs

/-- `RotateFree(axis, angle)`: seeds `rotation` with `Identity()`, hands it
to the collaborator `Gs::MakeFreeRotation(rotation, axis, angle)` (declared
outside this core, a parameter `mkRot` here), then `*this *= rotation`,
which by `operator*=` is `*this = (*this) * rotation`. -/
def Matrix.RotateFree (L : Layout) {T : Type} [Semiring T] {N : ℕ}
    (mkRot : Matrix T N N → Vector3T T → T → Matrix T N N)
    (axis : Vector3T T) (angle : T) (A : Matrix T N N) : Matrix T N N :=
  matMul L A (mkRot (Matrix.Identity L T N) axis angle)

lemma foldl_add_map {T : Type} [AddMonoid T] (f : α → T) (l : List α) (a : T) :
    l.foldl (fun acc i => acc + f i) a = a + (l.map f).sum := by
  induction l generalizing a with
  | nil => simp
  | cons hd tl ih => simp [ih, add_assoc]

lemma dotAcc_eq_sum {T : Type} [AddCommMonoid T] (K : ℕ) (f : Fin K → T) :
    dotAcc K f = ∑ i : Fin K, f i := by
  rw [dotAcc, foldl_add_map, zero_add, Fin.sum_univ_def]

lemma matMul_app (L : Layout) {T : Type} [Semiring T] {R K C : ℕ}
    (A : Matrix T R K) (B : Matrix T K C) (r : Fin R) (c : Fin C) :
    (matMul L A B).app L r c = ∑ i : Fin K, A.app L r i * B.app L i c := by
  rw [matMul, Matrix.app_ofFun, dotAcc_eq_sum]

lemma Identity_app (L : Layout) {T : Type} [Zero T] [One T] {N : ℕ}
    (r c : Fin N) :
    (Matrix.Identity L T N).app L r c = if r = c then (1 : T) else 0 :=
  Matrix.app_ofFun L _ r c

lemma Transposed_app (L : Layout) {T : Type} {R C : ℕ}
    (A : Matrix T R C) (c : Fin C) (r : Fin R) :
    (A.Transposed L).app L c r = A.app L r c :=
  Matrix.app_ofFun L _ c r

/-- C1: the free `operator*` on an `Rows×K` and a `K×Cols` matrix yields the
`Rows×Cols` matrix whose entry `(r, c)` is the sum over `i < K` of
`A(r,i)*B(i,c)`, accumulated from scalar zero; and concretely
`[[1,2,3],[4,5,6]] * [[7,8],[9,10],[11,12]] = [[58,64],[139,154]]`
under either storage layout. -/
theorem matMul_is_sum_of_products :
    (∀ (T : Type) [Semiring T] (L : Layout) (R K C : ℕ)
        (A : Matrix T R K) (B : Matrix T K C) (r : Fin R) (c : Fin C),
        (matMul L A B).app L r c = ∑ i : Fin K, A.app L r i * B.app L i c)
    ∧ (∀ L : Layout,
        matMul L (mkMat L ℤ 2 3 [1, 2, 3, 4, 5, 6])
            (mkMat L ℤ 3 2 [7, 8, 9, 10, 11, 12])
          = mkMat L ℤ 2 2 [58, 64, 139, 154]) := by
  refine ⟨fun T _ L R K C A B r c => matMul_app L A B r c, fun L => ?_⟩
  cases L <;> decide

/-- C6: for every square matrix `M` over an exact scalar ring,
`Identity() * M == M` and `M * Identity() == M` element-wise, under either
storage layout. -/
theorem identity_mul_identity :
    ∀ (T : Type) [Semiring T] (N : ℕ) (L : Layout) (M : Matrix T N N),
      matMul L (Matrix.Identity L T N) M = M
        ∧ matMul L M (Matrix.Identity L T N) = M := by
  intro T _ N L M
  constructor
  · apply Matrix.ext_app L
    intro r c
    simp [matMul_app, Identity_app, ite_mul, one_mul, zero_mul]
  · apply Matrix.ext_app L
    intro r c
    simp [matMul_app, Identity_app, mul_ite, mul_one, mul_zero]

/-- C7: out-of-place transpose is an involution, `M.Transposed().Transposed()
== M` for every `Rows×Cols` matrix, and transposing the 2×3 matrix
`[[1,2,3],[4,5,6]]` yields the 3×2 matrix `[[1,4],[2,5],[3,6]]`, under
either storage layout. -/
theorem transposed_transposed_and_example :
    (∀ (T : Type) (L : Layout) (R C : ℕ) (A : Matrix T R C),
        (A.Transposed L).Transposed L = A)
    ∧ (∀ L : Layout,
        (mkMat L ℤ 2 3 [1, 2, 3, 4, 5, 6]).Transposed L
          = mkMat L ℤ 3 2 [1, 4, 2, 5, 3, 6]) := by
  constructor
  · intro T L R C A
    apply Matrix.ext_app L
    intro r c
    rw [Transposed_app, Transposed_app]
  · intro L
    cases L <;> decide

/-- C2: the compound `a /= b` divides component-wise as claimed, but the
free binary `operator/ (lhs, rhs)` on two vectors copies `lhs` and then
applies `*=` instead of `/=`, so it returns the component-wise product:
at `lhs = (6,6,6)`, `rhs = (2,3,6)` it yields `(12,18,36)`, not the
claimed quotient `(3,2,1)`. -/
theorem vector3_div_op_multiplies :
    Vector3T.divV (⟨6, 6, 6⟩ : Vector3T ℤ) ⟨2, 3, 6⟩ = ⟨3, 2, 1⟩
    ∧ vecDivOp (⟨6, 6, 6⟩ : Vector3T ℤ) ⟨2, 3, 6⟩ = ⟨12, 18, 36⟩
    ∧ vecDivOp (⟨6, 6, 6⟩ : Vector3T ℤ) ⟨2, 3, 6⟩ ≠ ⟨3, 2, 1⟩ := by
  refine ⟨rfl, rfl, ?_⟩
  decide

/-- C8: `RotateFree(axis, angle)` equals right-multiplication of the old
matrix by the collaborator-built, identity-seeded rotation matrix, for
every collaborator, axis, angle and matrix; and right-multiplication
differs from left-multiplication on concrete 2×2 integer matrices, so the
order is observable. -/
theorem rotateFree_right_multiplies :
    (∀ (T : Type) [Semiring T] (N : ℕ) (L : Layout)
        (mkRot : Matrix T N N → Vector3T T → T → Matrix T N N)
        (axis : Vector3T T) (angle : T) (M : Matrix T N N),
        Matrix.RotateFree L mkRot axis angle M
          = matMul L M (mkRot (Matrix.Identity L T N) axis angle))
    ∧ Matrix.RotateFree .rowMajor
        (fun _ _ _ => mkMat .rowMajor ℤ 2 2 [1, 0, 1, 1]) ⟨0, 0, 1⟩ 0
        (mkMat .rowMajor ℤ 2 2 [1, 1, 0, 1])
        = matMul .rowMajor (mkMat .rowMajor ℤ 2 2 [1, 1, 0, 1])
            (mkMat .rowMajor ℤ 2 2 [1, 0, 1, 1])
    ∧ matMul .rowMajor (mkMat .rowMajor ℤ 2 2 [1, 1, 0, 1])
        (mkMat .rowMajor ℤ 2 2 [1, 0, 1, 1])
      ≠ matMul .rowMajor (mkMat .rowMajor ℤ 2 2 [1, 0, 1, 1])
          (mkMat .rowMajor ℤ 2 2 [1, 1, 0, 1]) := by
  refine ⟨fun T _ N L mkRot axis angle M => rfl, by decide, by decide⟩

/-- C9: `MakeInverse()` hands the collaborator `*this` as output slot and a
copy of the prior value as input, and returns the collaborator flag
unchanged; whenever the collaborator reports success its output is a
two-sided inverse of the input, so on success the matrix holds the inverse
of its prior value. -/
theorem makeInverse_delegates {T : Type} [Semiring T] {N : ℕ} (L : Layout)
    (invC : Matrix T N N → Matrix T N N → Bool × Matrix T N N)
    (M : Matrix T N N)
    (hC : ∀ o A, (invC o A).1 = true →
      matMul L A (invC o A).2 = Matrix.Identity L T N
        ∧ matMul L (invC o A).2 A = Matrix.Identity L T N) :
    Matrix.MakeInverse invC M = invC M M
    ∧ ((Matrix.MakeInverse invC M).1 = true →
        matMul L M (Matrix.MakeInverse invC M).2 = Matrix.Identity L T N
          ∧ matMul L (Matrix.MakeInverse invC M).2 M = Matrix.Identity L T N) :=
  ⟨rfl, fun h => hC M M h⟩

/-- A concrete inversion collaborator that always fails, satisfying the
spec contract vacuously; used to instantiate `makeInverse_delegates`. -/
def failInv : Matrix ℤ 1 1 → Matrix ℤ 1 1 → Bool × Matrix ℤ 1 1 :=
  fun _ _ => (false, Matrix.Reset)

theorem makeInverse_delegates_witness :
    Matrix.MakeInverse failInv (Matrix.Identity .rowMajor ℤ 1)
        = failInv (Matrix.Identity .rowMajor ℤ 1) (Matrix.Identity .rowMajor ℤ 1)
    ∧ ((Matrix.MakeInverse failInv (Matrix.Identity .rowMajor ℤ 1)).1 = true →
        matMul .rowMajor (Matrix.Identity .rowMajor ℤ 1)
            (Matrix.MakeInverse failInv (Matrix.Identity .rowMajor ℤ 1)).2
          = Matrix.Identity .rowMajor ℤ 1
        ∧ matMul .rowMajor
            (Matrix.MakeInverse failInv (Matrix.Identity .rowMajor ℤ 1)).2
            (Matrix.Identity .rowMajor ℤ 1)
          = Matrix.Identity .rowMajor ℤ 1) :=
  makeInverse_delegates .rowMajor failInv (Matrix.Identity .rowMajor ℤ 1)
    (fun o A h => by simp [failInv] at h)

/-- A collaborator that always reports success, differing from `failInv`
only in the flag; used to instantiate `inverse_discards_flag`. -/
def okInv : Matrix ℤ 1 1 → Matrix ℤ 1 1 → Bool × Matrix ℤ 1 1 :=
  fun _ _ => (true, Matrix.Reset)

/-- C10: the const `Inverse()` returns exactly the matrix `MakeInverse`
leaves in the copy, and discards the boolean flag: two collaborators whose
outputs agree but whose flags differ give identical `Inverse()` results, so
a singular input produces no observable failure indication. -/
theorem inverse_discards_flag {T : Type} {N : ℕ}
    (invC invC' : Matrix T N N → Matrix T N N → Bool × Matrix T N N)
    (M : Matrix T N N)
    (h2 : (invC M M).2 = (invC' M M).2) :
    Matrix.Inverse invC M = (Matrix.MakeInverse invC M).2
    ∧ Matrix.Inverse invC M = Matrix.Inverse invC' M :=
  ⟨rfl, by simp [Matrix.Inverse, Matrix.MakeInverse, h2]⟩

theorem inverse_discards_flag_witness :
    Matrix.Inverse failInv (Matrix.Identity .rowMajor ℤ 1)
        = (Matrix.MakeInverse failInv (Matrix.Identity .rowMajor ℤ 1)).2
    ∧ Matrix.Inverse failInv (Matrix.Identity .rowMajor ℤ 1)
        = Matrix.Inverse okInv (Matrix.Identity .rowMajor ℤ 1) :=
  inverse_discards_flag failInv okInv (Matrix.Identity .rowMajor ℤ 1) rfl

lemma writeAt_app (L : Layout) {T : Type} {R C : ℕ}
    (A : Matrix T R C) (e : ℕ) (v : T) (he : e < R * C)
    (r : Fin R) (c : Fin C) :
    (writeAt L A e v).app L r c =
      if r.1 * C + c.1 = e then v else A.app L r c := by
  rw [writeAt, dif_pos he, Matrix.app_set]
  by_cases h : r.1 * C + c.1 = e
  · subst h
    simp [Fin.ext_iff, slot_div r c, slot_mod r c]
  · rw [if_neg h, if_neg]
    rintro ⟨h1, h2⟩
    apply h
    rw [Fin.ext_iff] at h1 h2
    simp only [] at h1 h2
    rw [← h1, ← h2, Nat.mul_comm]
    exact Nat.div_add_mod e C

lemma initFrom_app (L : Layout) {T : Type} {R C : ℕ}
    (vs : List T) (e : ℕ) (A : Matrix T R C) (r : Fin R) (c : Fin C)
    (hlen : e + vs.length ≤ R * C) :
    (initFrom L A e vs).app L r c =
      if e ≤ r.1 * C + c.1 ∧ r.1 * C + c.1 < e + vs.length
      then vs.getD (r.1 * C + c.1 - e) (A.app L r c)
      else A.app L r c := by
  induction vs generalizing e A with
  | nil =>
      rw [initFrom, if_neg]
      rintro ⟨h1, h2⟩
      simp only [List.length_nil] at h2
      omega
  | cons v rest ih =>
      simp only [List.length_cons] at hlen
      have he : e < R * C := by omega
      rw [initFrom, ih (e + 1) _ (by omega)]
      rw [writeAt_app L A e v he r c]
      simp only [List.length_cons]
      rcases Nat.lt_trichotomy (r.1 * C + c.1) e with hlt | heq | hgt
      · rw [if_neg (by omega), if_neg (by omega), if_neg (by omega)]
      · rw [if_neg (by omega), if_pos heq, if_pos (by omega), heq, Nat.sub_self,
          List.getD_cons_zero]
      · by_cases hin : r.1 * C + c.1 < e + 1 + rest.length
        · rw [if_pos ⟨by omega, hin⟩, if_neg (by omega), if_pos (by omega)]
          have hsub : r.1 * C + c.1 - e = (r.1 * C + c.1 - (e + 1)) + 1 := by
            omega
          rw [hsub, List.getD_cons_succ]
        · rw [if_neg (by omega), if_neg (by omega), if_neg (by omega)]

/-- C5: the initializer chain `matrix << v0, v1, ...` writes the n-th value
to logical slot `(n / Cols, n % Cols)`, i.e. slot `(r, c)` receives value
number `r*Cols + c`; slots past the supplied count keep their prior value;
and for a 2×2 matrix `m << 1,2,3,4` gives `m(r,c) = r*2 + c + 1` under
either storage layout. -/
theorem initializer_row_major_order (L : Layout) {T : Type} {R C : ℕ}
    (A : Matrix T R C) (vs : List T) (h : vs.length ≤ R * C) :
    (∀ (r : Fin R) (c : Fin C),
      (initChain L A vs).app L r c =
        if r.1 * C + c.1 < vs.length
        then vs.getD (r.1 * C + c.1) (A.app L r c)
        else A.app L r c)
    ∧ (∀ (L' : Layout) (r c : Fin 2),
        (mkMat L' ℤ 2 2 [1, 2, 3, 4]).app L' r c = (r.1 : ℤ) * 2 + (c.1 : ℤ) + 1) := by
  constructor
  · intro r c
    rw [initChain, initFrom_app L vs 0 A r c (by omega)]
    simp
  · intro L' r c
    cases L' <;> (fin_cases r <;> fin_cases c <;> decide)

theorem initializer_row_major_order_witness :
    ((3 : ℕ) ≤ 2 * 2)
    ∧ ((∀ (r c : Fin 2),
        (initChain .rowMajor (Matrix.Reset : Matrix ℤ 2 2) [7, 8, 9]).app .rowMajor r c =
          if r.1 * 2 + c.1 < ([7, 8, 9] : List ℤ).length
          then ([7, 8, 9] : List ℤ).getD (r.1 * 2 + c.1)
            ((Matrix.Reset : Matrix ℤ 2 2).app .rowMajor r c)
          else (Matrix.Reset : Matrix ℤ 2 2).app .rowMajor r c)
      ∧ (∀ (L' : Layout) (r c : Fin 2),
          (mkMat L' ℤ 2 2 [1, 2, 3, 4]).app L' r c = (r.1 : ℤ) * 2 + (c.1 : ℤ) + 1)) :=
  ⟨by decide,
    initializer_row_major_order .rowMajor (Matrix.Reset : Matrix ℤ 2 2) [7, 8, 9]
      (by decide)⟩

/-- All flat indices touched by a list of swap pairs. -/
def positionsOf (l : List (ℕ × ℕ)) : List ℕ :=
  l.flatMap fun pq => [pq.1, pq.2]

lemma mem_positionsOf {l : List (ℕ × ℕ)} {a : ℕ} :
    a ∈ positionsOf l ↔ ∃ pq ∈ l, a = pq.1 ∨ a = pq.2 := by
  simp only [positionsOf, List.mem_flatMap, List.mem_cons, List.mem_singleton,
    List.not_mem_nil, or_false]

lemma foldl_swapIdx_not_mem {T : Type} (l : List (ℕ × ℕ)) (f : ℕ → T)
    (k : ℕ) (hk : k ∉ positionsOf l) :
    (l.foldl swapIdx f) k = f k := by
  induction l generalizing f with
  | nil => rfl
  | cons hd tl ih =>
      have h1 : k ≠ hd.1 ∧ k ≠ hd.2 ∧ k ∉ positionsOf tl := by
        constructor
        · intro h; exact hk (mem_positionsOf.mpr ⟨hd, List.mem_cons_self _ _, Or.inl h⟩)
        constructor
        · intro h; exact hk (mem_positionsOf.mpr ⟨hd, List.mem_cons_self _ _, Or.inr h⟩)
        · intro h
          rcases mem_positionsOf.mp h with ⟨pq, hpq, hor⟩
          exact hk (mem_positionsOf.mpr ⟨pq, List.mem_cons_of_mem _ hpq, hor⟩)
      rw [List.foldl_cons, ih _ h1.2.2]
      simp [swapIdx, h1.1, h1.2.1]

/-- Two swap pairs touch four pairwise distinct flat indices. -/
def AllDiff (pq pq' : ℕ × ℕ) : Prop :=
  pq.1 ≠ pq'.1 ∧ pq.1 ≠ pq'.2 ∧ pq.2 ≠ pq'.1 ∧ pq.2 ≠ pq'.2

lemma foldl_swapIdx_pair {T : Type} {l : List (ℕ × ℕ)}
    (hl : l.Pairwise AllDiff) (f : ℕ → T) {p q : ℕ} (hmem : (p, q) ∈ l) :
    (l.foldl swapIdx f) p = f q ∧ (l.foldl swapIdx f) q = f p := by
  induction l generalizing f with
  | nil => cases hmem
  | cons hd tl ih =>
      rw [List.pairwise_cons] at hl
      rw [List.foldl_cons]
      rcases List.mem_cons.mp hmem with heq | htl
      · subst heq
        have hp : p ∉ positionsOf tl := by
          intro h
          rcases mem_positionsOf.mp h with ⟨pq, hpq, hor⟩
          have := hl.1 pq hpq
          rcases hor with h' | h'
          · exact this.1 h'
          · exact this.2.1 h'
        have hq : q ∉ positionsOf tl := by
          intro h
          rcases mem_positionsOf.mp h with ⟨pq, hpq, hor⟩
          have := hl.1 pq hpq
          rcases hor with h' | h'
          · exact this.2.2.1 h'
          · exact this.2.2.2 h'
        rw [foldl_swapIdx_not_mem tl _ p hp, foldl_swapIdx_not_mem tl _ q hq]
        constructor
        · simp [swapIdx]
        · by_cases hpq : q = p
          · simp [swapIdx, hpq]
          · simp [swapIdx, hpq]
      · have h4 := hl.1 (p, q) htl
        have := ih hl.2 (swapIdx f hd) htl
        rw [this.1, this.2]
        constructor
        · simp [swapIdx, (Ne.symm h4.2.1 : q ≠ hd.1), (Ne.symm h4.2.2.2 : q ≠ hd.2)]
        · simp [swapIdx, (Ne.symm h4.1 : p ≠ hd.1), (Ne.symm h4.2.2.1 : p ≠ hd.2)]

lemma encode_inj {N a b a2 b2 : ℕ} (hb : b < N) (hb2 : b2 < N)
    (h : a * N + b = a2 * N + b2) : a = a2 ∧ b = b2 := by
  have hN : 0 < N := by omega
  have e1 : (a * N + b) / N = a := by
    rw [Nat.mul_comm, Nat.mul_add_div hN, Nat.div_eq_of_lt hb, Nat.add_zero]
  have e2 : (a * N + b) % N = b := by
    rw [Nat.mul_comm, Nat.mul_add_mod, Nat.mod_eq_of_lt hb]
  have e3 : (a2 * N + b2) / N = a2 := by
    rw [Nat.mul_comm, Nat.mul_add_div hN, Nat.div_eq_of_lt hb2, Nat.add_zero]
  have e4 : (a2 * N + b2) % N = b2 := by
    rw [Nat.mul_comm, Nat.mul_add_mod, Nat.mod_eq_of_lt hb2]
  constructor
  · rw [← e1, ← e3, h]
  · rw [← e2, ← e4, h]

lemma encode_cross {N a b a2 b2 : ℕ} (hab : a < b) (hb : b < N)
    (hab2 : a2 < b2) (hb2 : b2 < N) : a * N + b ≠ b2 * N + a2 := by
  intro h
  have := encode_inj hb (by omega : a2 < N) h
  omega

lemma mem_transposePairs {N p q : ℕ} :
    (p, q) ∈ transposePairs N ↔
      ∃ a b, a < b ∧ b < N ∧ p = a * N + b ∧ q = b * N + a := by
  simp only [transposePairs, List.mem_flatMap, List.mem_map, List.mem_range,
    Prod.mk.injEq]
  constructor
  · rintro ⟨i, hi, j', hj', heq1, heq2⟩
    refine ⟨i, i + j' + 1, by omega, by omega, ?_, ?_⟩
    · rw [← heq1, Nat.mul_succ]
      omega
    · rw [← heq2]
      have h : j' + 1 + i = i + j' + 1 := by omega
      rw [h]
  · rintro ⟨a, b, hab, hbN, rfl, rfl⟩
    refine ⟨a, by omega, b - a - 1, by omega, ?_, ?_⟩
    · rw [Nat.mul_succ]
      omega
    · have h : b - a - 1 + 1 + a = b := by omega
      rw [h]

/-- The loop parameters `(i, j-1)` of `Transpose()` in execution order. -/
def pairParams (N : ℕ) : List (ℕ × ℕ) :=
  (List.range (N - 1)).flatMap fun i =>
    (List.range (N - 1 - i)).map fun j' => (i, j')

lemma transposePairs_eq_map (N : ℕ) :
    transposePairs N =
      (pairParams N).map fun ij =>
        (ij.1 * (N + 1) + (ij.2 + 1), (ij.2 + 1 + ij.1) * N + ij.1) := by
  simp only [transposePairs, pairParams, List.map_flatMap, List.map_map]
  rfl

lemma pairParams_nodup (N : ℕ) : (pairParams N).Nodup := by
  rw [pairParams, List.nodup_flatMap]
  constructor
  · intro i _
    exact (List.nodup_range _).map (fun a b h => by
      simpa using congrArg Prod.snd h)
  · apply (List.nodup_range _).pairwise_of_forall_ne
    intro i _ j _ hij
    intro a ha hb
    rcases List.mem_map.mp ha with ⟨x, _, rfl⟩
    rcases List.mem_map.mp hb with ⟨y, _, heq⟩
    exact hij (congrArg Prod.fst heq).symm

lemma mem_pairParams {N i j' : ℕ} :
    (i, j') ∈ pairParams N ↔ i < N - 1 ∧ j' < N - 1 - i := by
  simp only [pairParams, List.mem_flatMap, List.mem_map, List.mem_range,
    Prod.mk.injEq]
  constructor
  · rintro ⟨a, ha, b, hb, rfl, rfl⟩
    exact ⟨ha, hb⟩
  · rintro ⟨h1, h2⟩
    exact ⟨i, h1, j', h2, rfl, rfl⟩

lemma transposePairs_pairwise (N : ℕ) :
    (transposePairs N).Pairwise AllDiff := by
  rw [transposePairs_eq_map, List.pairwise_map]
  apply (pairParams_nodup N).pairwise_of_forall_ne
  rintro ⟨i, j'⟩ hx ⟨i2, j2'⟩ hy hxy
  rw [mem_pairParams] at hx hy
  have hb : i + j' + 1 < N := by omega
  have hb2 : i2 + j2' + 1 < N := by omega
  have e1 : i * (N + 1) + (j' + 1) = i * N + (i + j' + 1) := by
    rw [Nat.mul_succ]; omega
  have e2 : (j' + 1 + i) * N + i = (i + j' + 1) * N + i := by
    have h : j' + 1 + i = i + j' + 1 := by omega
    rw [h]
  have e3 : i2 * (N + 1) + (j2' + 1) = i2 * N + (i2 + j2' + 1) := by
    rw [Nat.mul_succ]; omega
  have e4 : (j2' + 1 + i2) * N + i2 = (i2 + j2' + 1) * N + i2 := by
    have h : j2' + 1 + i2 = i2 + j2' + 1 := by omega
    rw [h]
  have hne : ¬(i = i2 ∧ i + j' + 1 = i2 + j2' + 1) := by
    rintro ⟨rfl, h⟩
    exact hxy (by simp [Prod.ext_iff]; omega)
  refine ⟨?_, ?_, ?_, ?_⟩ <;> simp only [e1, e2, e3, e4]
  · intro h
    have := encode_inj hb hb2 h
    exact hne this
  · exact encode_cross (by omega) hb (by omega) hb2
  · intro h
    exact encode_cross (by omega) hb2 (by omega) hb h.symm
  · intro h
    have := encode_inj (by omega : i < N) (by omega : i2 < N) h
    exact hne ⟨this.2, by omega⟩

lemma diag_not_mem_positions {N a : ℕ} (ha : a < N) :
    a * N + a ∉ positionsOf (transposePairs N) := by
  intro h
  rcases mem_positionsOf.mp h with ⟨⟨p, q⟩, hpq, hor⟩
  rcases mem_transposePairs.mp hpq with ⟨x, y, hxy, hyN, rfl, rfl⟩
  rcases hor with h' | h'
  · have := encode_inj ha hyN h'
    omega
  · have := encode_inj ha (by omega : x < N) h'
    omega

lemma transpose_foldl_eval {T : Type} [Zero T] {N : ℕ} (A : Matrix T N N)
    (a b : ℕ) (ha : a < N) (hb : b < N) :
    ((transposePairs N).foldl swapIdx
        (fun i => if h : i < N * N then A.m ⟨i, h⟩ else 0)) (a * N + b)
      = A.m ⟨b * N + a, idx_lt (⟨b, hb⟩ : Fin N) (⟨a, ha⟩ : Fin N)⟩ := by
  have hba : b * N + a < N * N := idx_lt (⟨b, hb⟩ : Fin N) (⟨a, ha⟩ : Fin N)
  rcases Nat.lt_trichotomy a b with hab | hab | hab
  · have hmem : (a * N + b, b * N + a) ∈ transposePairs N :=
      mem_transposePairs.mpr ⟨a, b, hab, hb, rfl, rfl⟩
    rw [(foldl_swapIdx_pair (transposePairs_pairwise N) _ hmem).1,
      dif_pos hba]
  · subst hab
    rw [foldl_swapIdx_not_mem _ _ _ (diag_not_mem_positions ha),
      dif_pos hba]
  · have hmem : (b * N + a, a * N + b) ∈ transposePairs N :=
      mem_transposePairs.mpr ⟨b, a, hab, ha, rfl, rfl⟩
    rw [(foldl_swapIdx_pair (transposePairs_pairwise N) _ hmem).2,
      dif_pos hba]

lemma Transpose_app (L : Layout) {T : Type} [Zero T] {N : ℕ}
    (A : Matrix T N N) (r c : Fin N) :
    A.Transpose.app L r c = A.app L c r := by
  cases L
  · show A.Transpose.m ⟨r.1 * N + c.1, _⟩ = A.m ⟨c.1 * N + r.1, _⟩
    rw [Matrix.Transpose]
    exact transpose_foldl_eval A r.1 c.1 r.2 c.2
  · show A.Transpose.m ⟨c.1 * N + r.1, _⟩ = A.m ⟨r.1 * N + c.1, _⟩
    rw [Matrix.Transpose]
    exact transpose_foldl_eval A c.1 r.1 c.2 r.2

/-- C3: for every square matrix, the in-place swap-loop `Transpose()`
produces exactly the matrix the out-of-place `Transposed()` returns: after
the call entry `(r, c)` holds the old entry `(c, r)`, under both the
row-major and the column-major storage layout. -/
theorem transpose_eq_transposed :
    ∀ (T : Type) [Zero T] (N : ℕ) (L : Layout) (A : Matrix T N N),
      A.Transpose = A.Transposed L
      ∧ ∀ (r c : Fin N), A.Transpose.app L r c = A.app L c r := by
  intro T _ N L A
  have h := fun r c => Transpose_app L A r c
  exact ⟨Matrix.ext_app L (fun r c => by rw [h, Transposed_app]), h⟩

/-- `A` as stored by a row-major build and `B` as stored by a column-major
build hold the same logical matrix: they agree at every logical `(row, col)`. -/
def sameLogical {T : Type} {R C : ℕ} (A B : Matrix T R C) : Prop :=
  ∀ (r : Fin R) (c : Fin C), A.app .rowMajor r c = B.app .colMajor r c

instance {T : Type} [DecidableEq T] {R C : ℕ} (A B : Matrix T R C) :
    Decidable (sameLogical A B) := by
  unfold sameLogical
  infer_instance

lemma writeAt_sameLogical {T : Type} {R C : ℕ} {A A' : Matrix T R C}
    (h : sameLogical A A') (e : ℕ) (v : T) :
    sameLogical (writeAt .rowMajor A e v) (writeAt .colMajor A' e v) := by
  intro r c
  by_cases he : e < R * C
  · rw [writeAt_app _ _ _ _ he, writeAt_app _ _ _ _ he]
    by_cases hc : r.1 * C + c.1 = e
    · rw [if_pos hc, if_pos hc]
    · rw [if_neg hc, if_neg hc]
      exact h r c
  · rw [writeAt, dif_neg he, writeAt, dif_neg he]
    exact h r c

lemma initFrom_sameLogical {T : Type} {R C : ℕ} (vs : List T) (e : ℕ)
    {A A' : Matrix T R C} (h : sameLogical A A') :
    sameLogical (initFrom .rowMajor A e vs) (initFrom .colMajor A' e vs) := by
  induction vs generalizing e A A' with
  | nil => exact h
  | cons v rest ih =>
      rw [initFrom, initFrom]
      exact ih (e + 1) (writeAt_sameLogical h e v)

/-- C4: the storage-layout build option does not change logical semantics:
logical `(row, col)` maps to physical offset `row*Cols + col` under
row-major and `col*Rows + row` under column-major, and every public
operation of the embedding gives logically identical results in the
row-major and the column-major build whenever its inputs are logically
identical. -/
theorem storage_layout_invariance {T : Type} [Ring T] {R C K N : ℕ}
    (A A' B B' : Matrix T R C) (M M' : Matrix T C K) (S S' : Matrix T N N)
    (s : T) (vs : List T)
    (hA : sameLogical A A') (hB : sameLogical B B') (hM : sameLogical M M')
    (hS : sameLogical S S') :
    (∀ (r : Fin R) (c : Fin C),
        (physIdx .rowMajor r c).1 = r.1 * C + c.1
        ∧ (physIdx .colMajor r c).1 = c.1 * R + r.1)
    ∧ sameLogical (A.add B) (A'.add B')
    ∧ sameLogical (A.sub B) (A'.sub B')
    ∧ sameLogical (A.mulScalar s) (A'.mulScalar s)
    ∧ sameLogical (matMul .rowMajor A M) (matMul .colMajor A' M')
    ∧ sameLogical (A.Transposed .rowMajor) (A'.Transposed .colMajor)
    ∧ sameLogical (Matrix.Identity .rowMajor T N) (Matrix.Identity .colMajor T N)
    ∧ sameLogical (Matrix.Reset : Matrix T R C) Matrix.Reset
    ∧ sameLogical (initChain .rowMajor A vs) (initChain .colMajor A' vs)
    ∧ sameLogical S.Transpose S'.Transpose := by
  refine ⟨fun r c => ⟨rfl, rfl⟩, ?_, ?_, ?_, ?_, ?_, ?_, ?_, ?_, ?_⟩
  · intro r c
    show A.app .rowMajor r c + B.app .rowMajor r c
      = A'.app .colMajor r c + B'.app .colMajor r c
    rw [hA r c, hB r c]
  · intro r c
    show A.app .rowMajor r c - B.app .rowMajor r c
      = A'.app .colMajor r c - B'.app .colMajor r c
    rw [hA r c, hB r c]
  · intro r c
    show A.app .rowMajor r c * s = A'.app .colMajor r c * s
    rw [hA r c]
  · intro r c
    rw [matMul_app, matMul_app]
    exact Finset.sum_congr rfl fun i _ => by rw [hA r i, hM i c]
  · intro c r
    rw [Transposed_app, Transposed_app, hA r c]
  · intro r c
    rw [Identity_app, Identity_app]
  · intro r c
    rfl
  · exact initFrom_sameLogical vs 0 hA
  · intro r c
    rw [Transpose_app, Transpose_app, hS c r]

/-- The same logical 2×2 integer matrix, stored once by a row-major build
and once by a column-major build; with its companions, the concrete input
for the layout-invariance witness. -/
def wf : Fin 2 → Fin 2 → ℤ := fun r c => (r.1 : ℤ) * 2 + (c.1 : ℤ) + 1

def wg : Fin 2 → Fin 2 → ℤ := fun r c => (r.1 : ℤ) - 3 * (c.1 : ℤ)

def A0 : Matrix ℤ 2 2 := Matrix.ofFun .rowMajor wf

def A0' : Matrix ℤ 2 2 := Matrix.ofFun .colMajor wf

def B0 : Matrix ℤ 2 2 := Matrix.ofFun .rowMajor wg

def B0' : Matrix ℤ 2 2 := Matrix.ofFun .colMajor wg

theorem storage_layout_invariance_witness :
    (sameLogical A0 A0' ∧ sameLogical B0 B0')
    ∧ ((∀ (r : Fin 2) (c : Fin 2),
          (physIdx .rowMajor r c).1 = r.1 * 2 + c.1
          ∧ (physIdx .colMajor r c).1 = c.1 * 2 + r.1)
      ∧ sameLogical (A0.add B0) (A0'.add B0')
      ∧ sameLogical (A0.sub B0) (A0'.sub B0')
      ∧ sameLogical (A0.mulScalar 5) (A0'.mulScalar 5)
      ∧ sameLogical (matMul .rowMajor A0 B0) (matMul .colMajor A0' B0')
      ∧ sameLogical (A0.Transposed .rowMajor) (A0'.Transposed .colMajor)
      ∧ sameLogical (Matrix.Identity .rowMajor ℤ 2) (Matrix.Identity .colMajor ℤ 2)
      ∧ sameLogical (Matrix.Reset : Matrix ℤ 2 2) Matrix.Reset
      ∧ sameLogical (initChain .rowMajor A0 [9, 8, 7])
          (initChain .colMajor A0' [9, 8, 7])
      ∧ sameLogical A0.Transpose A0'.Transpose) :=
  ⟨⟨by decide, by decide⟩,
    storage_layout_invariance A0 A0' B0 B0' B0 B0' A0 A0' 5 [9, 8, 7]
      (by decide) (by decide) (by decide) (by decide)⟩

end Gs
